import Mathlib

/-!
Shallow embedding of the decomposition engine of kollabi
(src/kollabi/explainer.py, class CollabExplainer) and verification of the
frozen claims about it.

Modelling conventions:
* Feature names (pandas column labels, Python strings) are embedded as an
  arbitrary linearly ordered type with decidable order, so that Python
  sorted() is List.mergeSort on the same order.  Concrete witnesses use Nat.
* Python tuples and lists of features are both embedded as Lean lists; the
  re-tupling steps (tuple(tuple(gr) ...), __make_tuple) are identities here.
* Python dicts (self.models, self.decomps) are embedded as association
  lists; dict assignment d[k] = v for a key k that is not present is cons.
* The statistical primitives (np.var, np.cov, sklearn r2_score) and the
  external GAM learner are outside the core (the spec treats the learner as
  an external collaborator); the arithmetic of compute is embedded over the
  rationals with these measured statistics as explicit inputs, and fitted
  predictors are embedded as opaque identity tokens handed out by the model
  cache, with an instrumentation log of fit events.
* Python assert failures are embedded as Except.error values of the error
  taxonomy named in the specification (the source raises AssertionError
  with a message; the constructors mirror the messages).
-/

deriving instance DecidableEq for Except

section Embedding

variable {α : Type} [LinearOrder α] {V : Type} {σ : Type}

/-- Association-list lookup embedding Python dict membership test and
access (key in d / d[key]). -/
def alistFind [DecidableEq κ] (k : κ) : List (κ × ν) → Option ν
  | [] => none
  | (k₁, v) :: rest => if k = k₁ then some v else alistFind k rest

/-- Embeds Python sorted(c) on a list of features (insertion sort; the
sort algorithm is interchangeable because the order is antisymmetric, so
any correct sort produces the same list as CPython timsort). -/
def sortFeat (l : List α) : List α := l.insertionSort (fun a b => a ≤ b)

/-- Embeds the Python sort key lambda x: (len(x), x) of __sort_comb:
lexicographic comparison of the pair (length, contents), where the
contents of equal-length groups compare lexicographically. -/
def groupKey (a b : List α) : Prop :=
  a.length < b.length ∨ (a.length = b.length ∧ a ≤ b)

instance groupKey.decidableRel : @DecidableRel (List α) groupKey := by
  intro a b
  unfold groupKey
  infer_instance

/-- Embeds CollabExplainer.__sort_comb: sorts the features inside every
group, and, unless inner_only, then sorts the groups by (length, contents). -/
def sort_comb (comb : List (List α)) (innerOnly : Bool) : List (List α) :=
  let inner := comb.map sortFeat
  if innerOnly then inner else inner.insertionSort groupKey

/-- Six-field decomposition result, mirroring RETURN_NAMES =
[var_g1, var_g2, var_gC, additive_collab_explv, additive_collab_cov,
interactive_collab]. -/
structure DecompositionResult (V : Type) where
  var_g1 : V
  var_g2 : V
  var_gC : V
  additive_collab_explv : V
  additive_collab_cov : V
  interactive_collab : V
deriving DecidableEq, Repr

/-- Embeds CollabExplainer.__adjust_order: if the inner-only sort of the
caller combination already equals the full sort, the result is returned
unchanged; otherwise the var_g1 and var_g2 entries are exchanged
(pandas rename with inplace=False plus .loc reindexing: an out-of-place
swap of the two values, all other entries untouched). -/
def adjust_order (comb : List (List α)) (res : DecompositionResult V) :
    DecompositionResult V :=
  if sort_comb comb true = sort_comb comb false then res
  else
    { res with var_g1 := res.var_g2, var_g2 := res.var_g1 }

/-- Embeds CollabExplainer.__get_terms: itertools.combinations(fs, d) for
d in range(2, order+1), then drops the terms listed in exclude.
itertools.combinations(fs, d) enumerates exactly the length-d
order-preserving subsequences of fs, i.e. the members of
List.sublistsLen d fs (the enumeration order differs, membership does not;
the code only ever uses membership of the produced term lists). -/
def get_terms (fs : List α) (order : Nat) (exclude : List (List α)) :
    List (List α) :=
  let terms := (List.range' 2 (order - 1)).flatMap (fun d => List.sublistsLen d fs)
  terms.filter (fun t => decide (t ∉ exclude))

/-- Embeds CollabExplainer.__get_excluded_terms: all terms over the union
of the groups and C, minus the terms over each single group together
with C. -/
def get_excluded_terms (comb : List (List α)) (order : Nat) (C : List α) :
    List (List α) :=
  let termss := comb.map (fun elem => get_terms (elem ++ C) order [])
  let allowed_terms := termss.flatten
  let fs := comb.flatten ++ C
  let all_terms := get_terms fs order []
  all_terms.filter (fun t => decide (t ∉ allowed_terms))

/-- Raw element of a combination as accepted by the engine: a bare feature
name or a group of feature names (Python str, or list/tuple of str). -/
inductive RawGroup (α : Type) where
  | single : α → RawGroup α
  | group : List α → RawGroup α
deriving DecidableEq, Repr

/-- Conversion performed inside __assert_comb_valid: a bare string becomes
a one-element list, a tuple becomes a list. -/
def RawGroup.toGroup : RawGroup α → List α
  | .single f => [f]
  | .group l => l

/-- Error taxonomy of the specification; the source raises AssertionError
with a message, and each constructor mirrors one assert message (both
disjointness asserts map to OverlapError).  DegenerateTargetError is named
by the specification only; the source contains no corresponding check, the
constructor exists so that the claim about it can be stated. -/
inductive CollabError where
  | invalidCombination
  | unknownFeature
  | overlap
  | degenerateTarget
deriving DecidableEq, Repr

/-- Embeds CollabExplainer.__assert_comb_valid(comb, C): exactly two
groups, every feature a dataset column, the two groups disjoint, and the
union of the two groups disjoint from C.  Returns the combination as a
list of two feature lists. -/
def assert_comb_valid (fs : List α) (comb : List (RawGroup α)) (C : List α) :
    Except CollabError (List (List α)) :=
  match comb with
  | [rg₁, rg₂] =>
    let g₁ := rg₁.toGroup
    let g₂ := rg₂.toGroup
    if ¬ ∀ f ∈ g₁, f ∈ fs then .error .unknownFeature
    else if ¬ ∀ f ∈ g₂, f ∈ fs then .error .unknownFeature
    else if ∃ f ∈ g₁, f ∈ g₂ then .error .overlap
    else if ∃ f ∈ g₁ ++ g₂, f ∈ C then .error .overlap
    else .ok [g₁, g₂]
  | _ => .error .invalidCombination

/-- Key of the model cache self.models: (order, fully sorted combination,
sorted conditioning set). -/
def modelKeyOf (order : Nat) (comb : List (List α)) (C : List α) :
    Nat × List (List α) × List α :=
  (order, sort_comb comb false, sortFeat C)

/-- State of the model cache.  Fitted predictors are opaque tokens (the
claims are about cache identity, not learner internals): fresh is the next
token, and fit_log records, newest first, the cache key of every fit event
performed through __get_model, instrumenting the learner fit calls. -/
structure ModelState (α : Type) where
  models : List ((Nat × List (List α) × List α) × Nat)
  fit_log : List (Nat × List (List α) × List α)
  fresh : Nat
deriving DecidableEq, Repr

/-- One learner fit plus dict store, the tail of the miss branch of
__get_model (model = self.Learner(...); model.fit(...);
self.models[key] = model). -/
def fitStep (key : Nat × List (List α) × List α) (s : ModelState α) :
    Nat × ModelState α :=
  (s.fresh, ⟨(key, s.fresh) :: s.models, key :: s.fit_log, s.fresh + 1⟩)

/-- Embeds CollabExplainer.__get_model.  On a key hit the stored predictor
is returned and nothing changes.  On a miss, when C is non-empty the model
for [sorted C] with empty conditioning set is first obtained recursively
(the residual-target computation y_train - model.predict uses only
predict and is absorbed into the fitted token), then the requested model
is fitted (with the excluded cross-group terms passed to the learner when
the combination has more than one group; the learner configuration is
absorbed into the token) and stored. -/
def get_model (order : Nat) (comb : List (List α)) (C : List α)
    (s : ModelState α) : Nat × ModelState α :=
  let key := modelKeyOf order comb C
  match alistFind key s.models with
  | some m => (m, s)
  | none =>
    if hC : C = [] then fitStep key s
    else fitStep key (get_model order [sortFeat C] [] s).2
termination_by C.length
decreasing_by
  simp only [List.length_nil]
  exact List.length_pos.mpr hC

/-- Statistics measured by compute from the held-out evaluation split (the
numeric outputs of np.var, np.cov and sklearn r2_score that feed the
arithmetic of compute); embedded over the rationals. -/
structure ComputeStats where
  varYRes : ℚ
  varBPred : ℚ
  varTotal : ℚ
  varGAM : ℚ
  varF1 : ℚ
  varF2 : ℚ
  covRaw : ℚ
  varY : ℚ
deriving DecidableEq, Repr

/-- Embeds the arithmetic of CollabExplainer.compute from the covariance
line through the return statement (lines 230-232 and 296-325): the
normalizations by var_y_res, the collaboration terms, the unconditional
rescaling block, and the assembly of the returned six-entry series.
Mirroring the source, the rescaling block multiplies the local variable
additive_collab (a value the return statement no longer reads), not
additive_collab_wo_cov; the returned additive_collab_explv entry is the
unrescaled additive_collab_wo_cov. -/
def computeScores (st : ComputeStats) : DecompositionResult ℚ :=
  let var_fC := st.varBPred / st.varYRes
  let cov_g1_g2 := st.covRaw / st.varYRes
  let additive_collab := (st.varF1 + st.varF2 - st.varGAM) * (-1)
  let additive_collab_wo_cov := additive_collab + 2 * cov_g1_g2
  let interactive_collab := st.varTotal - st.varGAM
  let factor := st.varYRes / st.varY
  let var_f1 := st.varF1 * factor
  let var_f2 := st.varF2 * factor
  let _additive_collab_scaled := additive_collab * factor
  let cov_scaled := cov_g1_g2 * factor
  let interactive_scaled := interactive_collab * factor
  let var_fC_scaled := var_fC * factor
  { var_g1 := var_f1
    var_g2 := var_f2
    var_gC := var_fC_scaled
    additive_collab_explv := additive_collab_wo_cov
    additive_collab_cov := (-2) * cov_scaled
    interactive_collab := interactive_scaled }

/-- Embeds CollabExplainer.compute at the interface level: the input
validation (which, as in the source at line 215, is called without
forwarding C) followed by the arithmetic of computeScores.  The body of
compute raises nothing after validation: there is no zero-variance guard
on the evaluation target, the divisions are performed unconditionally (in
this rational embedding x / 0 = 0; under IEEE arithmetic the quotients are
non-finite - either way no exception is raised). -/
def compute (fs : List α) (comb : List (RawGroup α)) (C : List α)
    (st : ComputeStats) : Except CollabError (DecompositionResult ℚ) :=
  match assert_comb_valid fs comb [] with
  | .error e => .error e
  | .ok _ => .ok (computeScores st)

/-- State threaded through the decomposition query layer: the result cache
self.decomps plus the rest of the engine state (model cache, fit counters,
training data), kept abstract as sigma since get touches it only through
compute. -/
structure DecompState (α V σ : Type) where
  decomps : List (((List (List α) × List α)) × DecompositionResult V)
  rest : σ
deriving DecidableEq, Repr

/-- Embeds the body of CollabExplainer.get after its validation call.
computeFn abstracts self.compute as a deterministic state transformer on
the rest of the engine state (the source compute reads and mutates the
model cache and the training data derived objects and is deterministic in
them given the fixed data split); the leading re-validation inside
compute, which the source also calls without forwarding C, is kept
explicit here.  Mirroring the source: on a cache hit the stored result is
relabeled out of place with adjust_order and the state is untouched; on a
miss compute is called on the fully sorted combination and its result is
stored and returned without relabeling. -/
def get_core
    (computeFn : List (List α) → List α → σ → DecompositionResult V × σ)
    (fs : List α) (comb₁ : List (List α)) (C : List α)
    (s : DecompState α V σ) :
    Except CollabError (DecompositionResult V × DecompState α V σ) :=
  match alistFind (sort_comb comb₁ false, sortFeat C) s.decomps with
  | some res => .ok (adjust_order comb₁ res, s)
  | none =>
    match assert_comb_valid fs ((sort_comb comb₁ false).map RawGroup.group) [] with
    | .error e => .error e
    | .ok comb₂ =>
      let res := (computeFn comb₂ C s.rest).1
      let rest₁ := (computeFn comb₂ C s.rest).2
      .ok (res, ⟨((sort_comb comb₁ false, sortFeat C), res) :: s.decomps, rest₁⟩)

/-- Embeds CollabExplainer.get, split into the validation step and
get_core for the body after it.  As in the source (line 193), the
validator is invoked without forwarding the conditioning set C, so the
disjointness assert on C inside __assert_comb_valid checks against the
empty default instead of the C the caller supplied. -/
def CollabExplainer.get (computeFn : List (List α) → List α → σ → DecompositionResult V × σ)
    (fs : List α) (comb : List (RawGroup α)) (C : List α)
    (s : DecompState α V σ) :
    Except CollabError (DecompositionResult V × DecompState α V σ) :=
  match assert_comb_valid fs comb [] with
  | .error e => .error e
  | .ok comb₁ => get_core computeFn fs comb₁ C s

/-- Engine state as far as new_split is concerned: the configured test
size, the current train/test partition (abstracted to the token produced
by sklearn train_test_split), and the two caches. -/
structure EngineState (α V : Type) where
  test_size : ℚ
  split : Nat
  decomps : List (((List (List α) × List α)) × DecompositionResult V)
  models : List ((Nat × List (List α) × List α) × Nat)
deriving DecidableEq, Repr

/-- Embeds CollabExplainer.new_split: updates test_size when one is
passed, replaces the train/test partition with the freshly drawn one, and
clears self.decomps.  Mirroring the source, self.models is not touched. -/
def new_split (e : EngineState α V) (freshSplit : Nat)
    (testSize : Option ℚ) : EngineState α V :=
  let ts := match testSize with
    | none => e.test_size
    | some t => t
  { e with test_size := ts, split := freshSplit, decomps := [] }

end Embedding

section SortLemmas

variable {α : Type} [LinearOrder α]

theorem sortFeat_perm (l : List α) : (sortFeat l).Perm l :=
  List.perm_insertionSort _ l

theorem sortFeat_sorted (l : List α) :
    List.Sorted (fun a b : α => a ≤ b) (sortFeat l) :=
  List.sorted_insertionSort _ l

theorem sortFeat_eq_of_perm {l₁ l₂ : List α} (h : l₁.Perm l₂) :
    sortFeat l₁ = sortFeat l₂ :=
  List.eq_of_perm_of_sorted
    (((sortFeat_perm l₁).trans h).trans (sortFeat_perm l₂).symm)
    (sortFeat_sorted l₁) (sortFeat_sorted l₂)

theorem sortFeat_idem (l : List α) : sortFeat (sortFeat l) = sortFeat l :=
  (sortFeat_sorted l).insertionSort_eq

theorem sortFeat_mem {l : List α} {x : α} : x ∈ sortFeat l ↔ x ∈ l :=
  (sortFeat_perm l).mem_iff

theorem sortFeat_eq_nil {l : List α} : sortFeat l = [] ↔ l = [] := by
  constructor
  · intro h
    have := (sortFeat_perm l).length_eq
    rw [h] at this
    exact List.length_eq_zero.mp this.symm
  · rintro rfl
    rfl

theorem forall₂_perm_map_sortFeat {l₁ l₂ : List (List α)}
    (h : List.Forall₂ List.Perm l₁ l₂) : l₁.map sortFeat = l₂.map sortFeat := by
  induction h with
  | nil => rfl
  | cons h₀ _ ih => simp [List.map_cons, sortFeat_eq_of_perm h₀, ih]

instance groupKey.isTrans : IsTrans (List α) groupKey := by
  refine ⟨fun a b c hab hbc => ?_⟩
  unfold groupKey at hab hbc ⊢
  rcases hab with h₁ | ⟨h₁, h₁l⟩ <;> rcases hbc with h₂ | ⟨h₂, h₂l⟩
  · exact Or.inl (by omega)
  · exact Or.inl (by omega)
  · exact Or.inl (by omega)
  · exact Or.inr ⟨by omega, le_trans h₁l h₂l⟩

instance groupKey.isTotal : IsTotal (List α) groupKey := by
  refine ⟨fun a b => ?_⟩
  unfold groupKey
  rcases lt_trichotomy a.length b.length with h | h | h
  · exact Or.inl (Or.inl h)
  · rcases le_total a b with hle | hle
    · exact Or.inl (Or.inr ⟨h, hle⟩)
    · exact Or.inr (Or.inr ⟨h.symm, hle⟩)
  · exact Or.inr (Or.inl h)

instance groupKey.isAntisymm : IsAntisymm (List α) groupKey := by
  refine ⟨fun a b hab hba => ?_⟩
  unfold groupKey at hab hba
  rcases hab with h₁ | ⟨h₁, h₁l⟩ <;> rcases hba with h₂ | ⟨h₂, h₂l⟩
  · exact absurd h₂ (by omega)
  · exact absurd h₁ (by omega)
  · exact absurd h₂ (by omega)
  · exact le_antisymm h₁l h₂l

theorem sortOuter_eq_of_perm {c₁ c₂ : List (List α)} (h : c₁.Perm c₂) :
    c₁.insertionSort groupKey = c₂.insertionSort groupKey :=
  List.eq_of_perm_of_sorted
    (((List.perm_insertionSort groupKey c₁).trans h).trans
      (List.perm_insertionSort groupKey c₂).symm)
    (List.sorted_insertionSort groupKey c₁)
    (List.sorted_insertionSort groupKey c₂)

theorem sort_comb_false_def (comb : List (List α)) :
    sort_comb comb false = (comb.map sortFeat).insertionSort groupKey := rfl

theorem sort_comb_true_def (comb : List (List α)) :
    sort_comb comb true = comb.map sortFeat := rfl

/-- Permutation of the outer list plus arbitrary reordering inside every
group does not change the full canonicalization. -/
theorem sort_comb_eq_of_rel {comb₁ comb₂ : List (List α)}
    (h : ∃ mid, comb₁.Perm mid ∧ List.Forall₂ List.Perm mid comb₂) :
    sort_comb comb₁ false = sort_comb comb₂ false := by
  obtain ⟨mid, hperm, hf₂⟩ := h
  have hmap : mid.map sortFeat = comb₂.map sortFeat :=
    forall₂_perm_map_sortFeat hf₂
  rw [sort_comb_false_def, sort_comb_false_def]
  refine sortOuter_eq_of_perm ?_
  rw [← hmap]
  exact hperm.map sortFeat

theorem sort_comb_perm_pair (g₁ g₂ : List α) :
    (sort_comb [g₁, g₂] false).Perm [sortFeat g₁, sortFeat g₂] :=
  List.perm_insertionSort groupKey [sortFeat g₁, sortFeat g₂]

theorem sort_comb_idem (comb : List (List α)) :
    sort_comb (sort_comb comb false) false = sort_comb comb false := by
  rw [sort_comb_false_def, sort_comb_false_def]
  have hmap : ((comb.map sortFeat).insertionSort groupKey).map sortFeat =
      (comb.map sortFeat).insertionSort groupKey := by
    have hfix : ∀ g ∈ (comb.map sortFeat).insertionSort groupKey,
        sortFeat g = g := by
      intro g hg
      have hmem : g ∈ comb.map sortFeat :=
        (List.perm_insertionSort groupKey (comb.map sortFeat)).mem_iff.mp hg
      obtain ⟨g₀, _, rfl⟩ := List.mem_map.mp hmem
      exact sortFeat_idem g₀
    calc ((comb.map sortFeat).insertionSort groupKey).map sortFeat
        = ((comb.map sortFeat).insertionSort groupKey).map (fun g => g) :=
          List.map_congr_left hfix
      _ = (comb.map sortFeat).insertionSort groupKey := List.map_id _
  rw [hmap]
  exact (List.sorted_insertionSort groupKey (comb.map sortFeat)).insertionSort_eq

end SortLemmas

section ValidationLemmas

variable {α : Type} [LinearOrder α]

theorem perm_pair_cases {β : Type} {l : List β} {a b : β}
    (h : l.Perm [a, b]) : l = [a, b] ∨ l = [b, a] := by
  have hx : l.length = 2 := by simpa using h.length_eq
  match l, hx with
  | [x, y], _ =>
    have hmx : x = a ∨ x = b := by
      have : x ∈ [a, b] := h.mem_iff.mp (by simp)
      simpa using this
    rcases hmx with rfl | rfl
    · left
      have hy : [y].Perm [b] := h.cons_inv
      rw [List.perm_singleton.mp hy]
    · right
      have h₂ : [x, y].Perm [x, a] := h.trans (List.Perm.swap x a [])
      have hy : [y].Perm [a] := h₂.cons_inv
      rw [List.perm_singleton.mp hy]

/-- Characterization of a successful validation: the input has exactly two
elements, the output is their group form, every feature is a dataset
column, the groups are disjoint, and their union avoids C. -/
theorem assert_comb_valid_ok_iff {fs : List α} {comb : List (RawGroup α)}
    {C : List α} {comb₁ : List (List α)} :
    assert_comb_valid fs comb C = .ok comb₁ ↔
      ∃ rg₁ rg₂, comb = [rg₁, rg₂] ∧ comb₁ = [rg₁.toGroup, rg₂.toGroup] ∧
        (∀ f ∈ rg₁.toGroup, f ∈ fs) ∧ (∀ f ∈ rg₂.toGroup, f ∈ fs) ∧
        (∀ f ∈ rg₁.toGroup, f ∉ rg₂.toGroup) ∧
        (∀ f ∈ rg₁.toGroup ++ rg₂.toGroup, f ∉ C) := by
  match comb with
  | [] => simp [assert_comb_valid]
  | [rg] => simp [assert_comb_valid]
  | rg₁ :: rg₂ :: rg₃ :: rest => simp [assert_comb_valid]
  | [rg₁, rg₂] =>
    simp only [assert_comb_valid]
    constructor
    · intro h
      split_ifs at h with h₁ h₂ h₃ h₄ <;> cases h
      refine ⟨rg₁, rg₂, rfl, rfl, h₁, h₂, ?_, ?_⟩
      · intro f hf hf₂
        exact h₃ ⟨f, hf, hf₂⟩
      · intro f hf hfC
        exact h₄ ⟨f, hf, hfC⟩
    · rintro ⟨rg₁', rg₂', heq, rfl, hin₁, hin₂, hdisj, hC⟩
      simp only [List.cons.injEq, and_true] at heq
      obtain ⟨rfl, rfl⟩ := heq
      rw [if_neg (not_not_intro hin₁), if_neg (not_not_intro hin₂),
        if_neg ?_, if_neg ?_]
      · rintro ⟨f, hf, hfC⟩
        exact hC f hf hfC
      · rintro ⟨f, hf, hf₂⟩
        exact hdisj f hf hf₂

/-- Validation succeeds symmetrically on the swapped group order. -/
theorem assert_comb_valid_swap {fs : List α} {g₁ g₂ : List α} {C : List α}
    (h : assert_comb_valid fs [RawGroup.group g₁, RawGroup.group g₂] C =
      .ok [g₁, g₂]) :
    assert_comb_valid fs [RawGroup.group g₂, RawGroup.group g₁] C =
      .ok [g₂, g₁] := by
  rw [assert_comb_valid_ok_iff] at h ⊢
  obtain ⟨rg₁, rg₂, heq, _, hin₁, hin₂, hdisj, hC⟩ := h
  obtain ⟨rfl, rfl⟩ : rg₁ = RawGroup.group g₁ ∧ rg₂ = RawGroup.group g₂ := by
    constructor <;> injection heq with h₁ h₂ <;> try exact h₁.symm
    injection h₂ with h₂ _
    exact h₂.symm
  refine ⟨RawGroup.group g₂, RawGroup.group g₁, rfl, rfl, hin₂, hin₁, ?_, ?_⟩
  · intro f hf hf₁
    exact hdisj f hf₁ hf
  · intro f hf
    rcases List.mem_append.mp hf with hf' | hf'
    · exact hC f (List.mem_append.mpr (Or.inr hf'))
    · exact hC f (List.mem_append.mpr (Or.inl hf'))

/-- The fully sorted form of a validated combination again validates, to
itself; this is the re-validation that compute performs on the canonical
combination handed over by get on a cache miss. -/
theorem assert_comb_valid_sorted {fs : List α} {comb : List (RawGroup α)}
    {comb₁ : List (List α)}
    (h : assert_comb_valid fs comb [] = .ok comb₁) :
    assert_comb_valid fs ((sort_comb comb₁ false).map RawGroup.group) [] =
      .ok (sort_comb comb₁ false) := by
  rw [assert_comb_valid_ok_iff] at h
  obtain ⟨rg₁, rg₂, _, rfl, hin₁, hin₂, hdisj, _⟩ := h
  have hpair := sort_comb_perm_pair rg₁.toGroup rg₂.toGroup
  have hmem₁ : ∀ f, f ∈ sortFeat rg₁.toGroup ↔ f ∈ rg₁.toGroup :=
    fun f => sortFeat_mem
  have hmem₂ : ∀ f, f ∈ sortFeat rg₂.toGroup ↔ f ∈ rg₂.toGroup :=
    fun f => sortFeat_mem
  rcases perm_pair_cases hpair with hcase | hcase <;>
    rw [hcase, assert_comb_valid_ok_iff]
  · refine ⟨RawGroup.group (sortFeat rg₁.toGroup),
      RawGroup.group (sortFeat rg₂.toGroup), rfl, rfl, ?_, ?_, ?_, by simp⟩
    · intro f hf
      exact hin₁ f ((hmem₁ f).mp hf)
    · intro f hf
      exact hin₂ f ((hmem₂ f).mp hf)
    · intro f hf hf₂
      exact hdisj f ((hmem₁ f).mp hf) ((hmem₂ f).mp hf₂)
  · refine ⟨RawGroup.group (sortFeat rg₂.toGroup),
      RawGroup.group (sortFeat rg₁.toGroup), rfl, rfl, ?_, ?_, ?_, by simp⟩
    · intro f hf
      exact hin₂ f ((hmem₂ f).mp hf)
    · intro f hf
      exact hin₁ f ((hmem₁ f).mp hf)
    · intro f hf hf₂
      exact hdisj f ((hmem₁ f).mp hf₂) ((hmem₂ f).mp hf)

/-- The validator never reports the degenerate-target error: its failure
modes are arity, unknown features, and overlap. -/
theorem assert_comb_valid_ne_degenerate {fs : List α}
    {comb : List (RawGroup α)} {C : List α} :
    assert_comb_valid fs comb C ≠ .error .degenerateTarget := by
  match comb with
  | [] => simp [assert_comb_valid]
  | [rg] => simp [assert_comb_valid]
  | rg₁ :: rg₂ :: rg₃ :: rest => simp [assert_comb_valid]
  | [rg₁, rg₂] =>
    simp only [assert_comb_valid]
    intro h
    split_ifs at h <;> simp_all

end ValidationLemmas

section ModelCacheLemmas

variable {α : Type} [LinearOrder α]

theorem alistFind_cons {κ ν : Type} [DecidableEq κ] (k k₁ : κ) (v : ν)
    (l : List (κ × ν)) :
    alistFind k ((k₁, v) :: l) = if k = k₁ then some v else alistFind k l :=
  rfl

theorem alistFind_cons_isSome {κ ν : Type} [DecidableEq κ] {k : κ}
    {l : List (κ × ν)} (k₁ : κ) (v : ν)
    (h : (alistFind k l).isSome = true) :
    (alistFind k ((k₁, v) :: l)).isSome = true := by
  rw [alistFind_cons]
  by_cases hk : k = k₁ <;> simp [hk, h]

/-- Unfolding equation of get_model on a cache hit. -/
theorem get_model_hit {order : Nat} {comb : List (List α)} {C : List α}
    {s : ModelState α} {m : Nat}
    (h : alistFind (modelKeyOf order comb C) s.models = some m) :
    get_model order comb C s = (m, s) := by
  rw [get_model, h]

/-- Unfolding equation of get_model on a miss with empty conditioning
set. -/
theorem get_model_miss_nil {order : Nat} {comb : List (List α)}
    {s : ModelState α}
    (h : alistFind (modelKeyOf order comb []) s.models = none) :
    get_model order comb [] s = fitStep (modelKeyOf order comb []) s := by
  rw [get_model, h]
  simp

/-- Unfolding equation of get_model on a miss with non-empty conditioning
set: the conditioning model is fitted (or fetched) first. -/
theorem get_model_miss_cons {order : Nat} {comb : List (List α)}
    {C : List α} {s : ModelState α} (hC : C ≠ [])
    (h : alistFind (modelKeyOf order comb C) s.models = none) :
    get_model order comb C s =
      fitStep (modelKeyOf order comb C) (get_model order [sortFeat C] [] s).2 := by
  rw [get_model, h]
  simp [hC]

theorem fitStep_models (key : Nat × List (List α) × List α)
    (s : ModelState α) :
    (fitStep key s).2.models = (key, s.fresh) :: s.models := rfl

theorem fitStep_fit_log (key : Nat × List (List α) × List α)
    (s : ModelState α) :
    (fitStep key s).2.fit_log = key :: s.fit_log := rfl

/-- The model dictionary only grows: present keys stay present. -/
theorem get_model_models_mono_nil {order : Nat} {comb : List (List α)}
    {s : ModelState α} {k : Nat × List (List α) × List α}
    (h : (alistFind k s.models).isSome = true) :
    (alistFind k (get_model order comb [] s).2.models).isSome = true := by
  cases hfind : alistFind (modelKeyOf order comb []) s.models with
  | some m => rw [get_model_hit hfind]; exact h
  | none =>
    rw [get_model_miss_nil hfind, fitStep_models]
    exact alistFind_cons_isSome _ _ h

/-- Fit events of a call with empty conditioning set: either none, or
exactly the requested key, which was absent before. -/
theorem get_model_fit_log_nil (order : Nat) (comb : List (List α))
    (s : ModelState α) :
    (get_model order comb [] s).2.fit_log = s.fit_log ∨
      ((get_model order comb [] s).2.fit_log =
          modelKeyOf order comb [] :: s.fit_log ∧
        alistFind (modelKeyOf order comb []) s.models = none) := by
  cases hfind : alistFind (modelKeyOf order comb []) s.models with
  | some m => rw [get_model_hit hfind]; exact Or.inl rfl
  | none =>
    rw [get_model_miss_nil hfind, fitStep_fit_log]
    exact Or.inr ⟨rfl, rfl⟩

/-- Invariant instrumenting that the learner fit has been invoked at most
once per model-cache key: the log of fit events has no duplicate key and
every logged key is stored in the cache. -/
def ModelCacheInv (s : ModelState α) : Prop :=
  s.fit_log.Nodup ∧
    ∀ k ∈ s.fit_log, (alistFind k s.models).isSome = true

theorem fitStep_inv {key : Nat × List (List α) × List α}
    {s : ModelState α} (hinv : ModelCacheInv s)
    (habsent : alistFind key s.models = none) :
    ModelCacheInv (fitStep key s).2 := by
  constructor
  · rw [fitStep_fit_log, List.nodup_cons]
    refine ⟨fun hmem => ?_, hinv.1⟩
    have := hinv.2 key hmem
    rw [habsent] at this
    cases this
  · intro k hk
    rw [fitStep_fit_log] at hk
    rw [fitStep_models]
    rcases List.mem_cons.mp hk with rfl | hk'
    · rw [alistFind_cons, if_pos rfl]
      rfl
    · exact alistFind_cons_isSome _ _ (hinv.2 k hk')

theorem get_model_inv_nil {order : Nat} {comb : List (List α)}
    {s : ModelState α} (hinv : ModelCacheInv s) :
    ModelCacheInv (get_model order comb [] s).2 := by
  cases hfind : alistFind (modelKeyOf order comb []) s.models with
  | some m => rw [get_model_hit hfind]; exact hinv
  | none => rw [get_model_miss_nil hfind]; exact fitStep_inv hinv hfind

theorem modelKeyOf_snd_snd (order : Nat) (comb : List (List α))
    (C : List α) : (modelKeyOf order comb C).2.2 = sortFeat C := rfl

/-- Preservation of the at-most-one-fit-per-key invariant by an arbitrary
get_model call. -/
theorem get_model_inv {order : Nat} {comb : List (List α)} {C : List α}
    {s : ModelState α} (hinv : ModelCacheInv s) :
    ModelCacheInv (get_model order comb C s).2 := by
  rcases eq_or_ne C [] with rfl | hC
  · exact get_model_inv_nil hinv
  · cases hfind : alistFind (modelKeyOf order comb C) s.models with
    | some m => rw [get_model_hit hfind]; exact hinv
    | none =>
      rw [get_model_miss_cons hC hfind]
      have hinv₁ : ModelCacheInv (get_model order [sortFeat C] [] s).2 :=
        get_model_inv_nil hinv
      refine fitStep_inv hinv₁ ?_
      cases habs : alistFind (modelKeyOf order comb C)
          (get_model order [sortFeat C] [] s).2.models with
      | none => rfl
      | some m =>
        exfalso
        cases hfind₂ : alistFind (modelKeyOf order [sortFeat C] [])
            s.models with
        | some m₂ =>
          rw [get_model_hit hfind₂] at habs
          rw [hfind] at habs
          cases habs
        | none =>
          rw [get_model_miss_nil hfind₂, fitStep_models,
            alistFind_cons] at habs
          have hkey : modelKeyOf order comb C ≠
              modelKeyOf order [sortFeat C] [] := by
            intro hk
            have h₂ := congrArg (fun k => k.2.2) hk
            simp only [modelKeyOf_snd_snd] at h₂
            have : sortFeat C = [] := by
              rw [h₂]
              simp [sortFeat]
            exact hC (sortFeat_eq_nil.mp this)
          rw [if_neg hkey, hfind] at habs
          cases habs

/-- After any get_model call the requested key is stored and maps to the
returned predictor. -/
theorem get_model_find_self (order : Nat) (comb : List (List α))
    (C : List α) (s : ModelState α) :
    alistFind (modelKeyOf order comb C) (get_model order comb C s).2.models =
      some (get_model order comb C s).1 := by
  rcases eq_or_ne C [] with rfl | hC
  · cases hfind : alistFind (modelKeyOf order comb []) s.models with
    | some m => rw [get_model_hit hfind]; exact hfind
    | none =>
      rw [get_model_miss_nil hfind, fitStep_models, alistFind_cons,
        if_pos rfl]
      rfl
  · cases hfind : alistFind (modelKeyOf order comb C) s.models with
    | some m => rw [get_model_hit hfind]; exact hfind
    | none =>
      rw [get_model_miss_cons hC hfind, fitStep_models, alistFind_cons,
        if_pos rfl]
      rfl

/-- Repeating a get_model request returns the stored predictor and leaves
the state untouched. -/
theorem get_model_idem (order : Nat) (comb : List (List α)) (C : List α)
    (s : ModelState α) :
    get_model order comb C (get_model order comb C s).2 =
      get_model order comb C s := by
  rw [get_model_hit (get_model_find_self order comb C s)]

end ModelCacheLemmas

section DecompCacheLemmas

variable {α : Type} [LinearOrder α] {V σ : Type}
variable {computeFn : List (List α) → List α → σ → DecompositionResult V × σ}

theorem adjust_order_id {comb : List (List α)} {res : DecompositionResult V}
    (h : sort_comb comb true = sort_comb comb false) :
    adjust_order comb res = res := if_pos h

theorem adjust_order_swapped {comb : List (List α)}
    {res : DecompositionResult V}
    (h : sort_comb comb true ≠ sort_comb comb false) :
    adjust_order comb res =
      { res with var_g1 := res.var_g2, var_g2 := res.var_g1 } := if_neg h

theorem get_ok_val {fs : List α} {comb : List (RawGroup α)} {C : List α}
    {s : DecompState α V σ} {comb₁ : List (List α)}
    (hval : assert_comb_valid fs comb [] = .ok comb₁) :
    CollabExplainer.get computeFn fs comb C s = get_core computeFn fs comb₁ C s := by
  simp only [CollabExplainer.get, hval]

theorem get_err_val {fs : List α} {comb : List (RawGroup α)} {C : List α}
    {s : DecompState α V σ} {e : CollabError}
    (hval : assert_comb_valid fs comb [] = .error e) :
    CollabExplainer.get computeFn fs comb C s = .error e := by
  simp only [CollabExplainer.get, hval]

theorem get_core_hit {fs : List α} {comb₁ : List (List α)} {C : List α}
    {s : DecompState α V σ} {res : DecompositionResult V}
    (h : alistFind (sort_comb comb₁ false, sortFeat C) s.decomps = some res) :
    get_core computeFn fs comb₁ C s = .ok (adjust_order comb₁ res, s) := by
  simp only [get_core, h]

theorem get_core_miss {fs : List α} {comb₁ : List (List α)} {C : List α}
    {s : DecompState α V σ} {comb₂ : List (List α)}
    (h : alistFind (sort_comb comb₁ false, sortFeat C) s.decomps = none)
    (hval : assert_comb_valid fs ((sort_comb comb₁ false).map RawGroup.group) []
      = .ok comb₂) :
    get_core computeFn fs comb₁ C s =
      .ok ((computeFn comb₂ C s.rest).1,
        ⟨((sort_comb comb₁ false, sortFeat C), (computeFn comb₂ C s.rest).1)
            :: s.decomps,
          (computeFn comb₂ C s.rest).2⟩) := by
  simp only [get_core, h, hval]

theorem get_core_miss_err {fs : List α} {comb₁ : List (List α)} {C : List α}
    {s : DecompState α V σ} {e : CollabError}
    (h : alistFind (sort_comb comb₁ false, sortFeat C) s.decomps = none)
    (hval : assert_comb_valid fs ((sort_comb comb₁ false).map RawGroup.group) []
      = .error e) :
    get_core computeFn fs comb₁ C s = .error e := by
  simp only [get_core, h, hval]

/-- A repeated get with the same combination and conditioning set is
served from the result cache and leaves the whole engine state - in
particular the model cache and any learner fit counts inside the abstract
rest component - unchanged. -/
theorem get_second_call {fs : List α} {comb : List (RawGroup α)}
    {C : List α} {s s₁ : DecompState α V σ} {r₁ : DecompositionResult V}
    (h : CollabExplainer.get computeFn fs comb C s = .ok (r₁, s₁)) :
    ∃ r₂, CollabExplainer.get computeFn fs comb C s₁ = .ok (r₂, s₁) := by
  cases hval : assert_comb_valid fs comb [] with
  | error e => rw [get_err_val hval] at h; cases h
  | ok comb₁ =>
    rw [get_ok_val hval] at h
    rw [get_ok_val hval]
    cases hfind : alistFind (sort_comb comb₁ false, sortFeat C) s.decomps with
    | some res =>
      rw [get_core_hit hfind] at h
      injection h with h₀
      injection h₀ with hr hs
      subst hs
      exact ⟨adjust_order comb₁ res, get_core_hit hfind⟩
    | none =>
      cases hval₂ : assert_comb_valid fs
          ((sort_comb comb₁ false).map RawGroup.group) [] with
      | error e => rw [get_core_miss_err hfind hval₂] at h; cases h
      | ok comb₂ =>
        rw [get_core_miss hfind hval₂] at h
        injection h with h₀
        injection h₀ with hr hs
        subst hr
        subst hs
        refine ⟨adjust_order comb₁ ((computeFn comb₂ C s.rest).1),
          get_core_hit ?_⟩
        rw [alistFind_cons, if_pos rfl]

/-- The two caller orders of the same two groups share the canonical
key. -/
theorem sort_comb_swap_eq (g₁ g₂ : List α) :
    sort_comb [g₂, g₁] false = sort_comb [g₁, g₂] false := by
  refine sort_comb_eq_of_rel ⟨[g₁, g₂], List.Perm.swap g₁ g₂ [], ?_⟩
  exact List.forall₂_same.mpr fun x _ => List.Perm.refl x

/-- On a cache hit, get serves an out-of-place relabeled copy of the
stored entry and leaves the engine state - including the stored entry -
untouched. -/
theorem get_hit_serves_copy {fs : List α} {comb : List (RawGroup α)}
    {C : List α} {s : DecompState α V σ} {comb₁ : List (List α)}
    {res : DecompositionResult V}
    (hval : assert_comb_valid fs comb [] = .ok comb₁)
    (hfind : alistFind (sort_comb comb₁ false, sortFeat C) s.decomps =
      some res) :
    CollabExplainer.get computeFn fs comb C s =
      .ok (adjust_order comb₁ res, s) := by
  rw [get_ok_val hval]
  exact get_core_hit hfind

/-- Every entry of the decomposition cache is stored under a canonical
key (fully sorted combination, sorted conditioning set) and is the
compute output for exactly that canonical combination: cached results
carry canonical group labels. -/
def DecompCacheInv
    (computeFn : List (List α) → List α → σ → DecompositionResult V × σ)
    (s : DecompState α V σ) : Prop :=
  ∀ k res, alistFind k s.decomps = some res →
    sort_comb k.1 false = k.1 ∧ sortFeat k.2 = k.2 ∧
    ∃ C₀ rest₀, sortFeat C₀ = k.2 ∧ (computeFn k.1 C₀ rest₀).1 = res

theorem get_preserves_inv {fs : List α} {comb : List (RawGroup α)}
    {C : List α} {s s' : DecompState α V σ} {r' : DecompositionResult V}
    (hinv : DecompCacheInv computeFn s)
    (h : CollabExplainer.get computeFn fs comb C s = .ok (r', s')) :
    DecompCacheInv computeFn s' := by
  cases hval : assert_comb_valid fs comb [] with
  | error e => rw [get_err_val hval] at h; cases h
  | ok comb₁ =>
    rw [get_ok_val hval] at h
    cases hfind : alistFind (sort_comb comb₁ false, sortFeat C) s.decomps with
    | some res =>
      rw [get_core_hit hfind] at h
      injection h with h₀
      injection h₀ with hr hs
      subst hs
      exact hinv
    | none =>
      have hval₂ := assert_comb_valid_sorted hval
      rw [get_core_miss hfind hval₂] at h
      injection h with h₀
      injection h₀ with hr hs
      subst hs
      intro k res hfindk
      rw [alistFind_cons] at hfindk
      by_cases hk : k = (sort_comb comb₁ false, sortFeat C)
      · rw [if_pos hk] at hfindk
        injection hfindk with hres
        subst hk
        exact ⟨sort_comb_idem comb₁, sortFeat_idem C, C, s.rest, rfl, hres⟩
      · rw [if_neg hk] at hfindk
        exact hinv k res hfindk

/-- Symmetry of get under swapping the two groups, provided the first
caller order is canonical: the second call swaps var_g1 and var_g2,
leaves the other four entries and the whole state unchanged. -/
theorem get_swap_of_canonical_first {fs : List α} {G₁ G₂ : List α}
    {C : List α} {s s₁ s₂ : DecompState α V σ}
    {r₁ r₂ : DecompositionResult V}
    (hval : assert_comb_valid fs [RawGroup.group G₁, RawGroup.group G₂] [] =
      .ok [G₁, G₂])
    (hcanon : sort_comb [G₁, G₂] true = sort_comb [G₁, G₂] false)
    (hne : sortFeat G₁ ≠ sortFeat G₂)
    (h₁ : CollabExplainer.get computeFn fs
      [RawGroup.group G₁, RawGroup.group G₂] C s = .ok (r₁, s₁))
    (h₂ : CollabExplainer.get computeFn fs
      [RawGroup.group G₂, RawGroup.group G₁] C s₁ = .ok (r₂, s₂)) :
    s₂ = s₁ ∧ r₂.var_g1 = r₁.var_g2 ∧ r₂.var_g2 = r₁.var_g1 ∧
      r₂.var_gC = r₁.var_gC ∧
      r₂.additive_collab_explv = r₁.additive_collab_explv ∧
      r₂.additive_collab_cov = r₁.additive_collab_cov ∧
      r₂.interactive_collab = r₁.interactive_collab := by
  have hval' := assert_comb_valid_swap hval
  rw [get_ok_val hval] at h₁
  rw [get_ok_val hval'] at h₂
  have hkeyeq : sort_comb [G₂, G₁] false = sort_comb [G₁, G₂] false :=
    sort_comb_swap_eq G₁ G₂
  have hcanon₂ : sort_comb [G₂, G₁] true ≠ sort_comb [G₂, G₁] false := by
    rw [hkeyeq, ← hcanon, sort_comb_true_def, sort_comb_true_def]
    intro hcontra
    simp only [List.map_cons, List.map_nil, List.cons.injEq] at hcontra
    exact hne hcontra.1.symm
  cases hfind : alistFind (sort_comb [G₁, G₂] false, sortFeat C) s.decomps with
  | some res =>
    rw [get_core_hit hfind] at h₁
    injection h₁ with h₀
    injection h₀ with hr hs
    subst hs
    rw [get_core_hit (show alistFind (sort_comb [G₂, G₁] false, sortFeat C)
        s.decomps = some res by rw [hkeyeq]; exact hfind)] at h₂
    injection h₂ with h₀'
    injection h₀' with hr' hs'
    subst hs'
    subst hr
    subst hr'
    rw [adjust_order_id hcanon, adjust_order_swapped hcanon₂]
    exact ⟨rfl, rfl, rfl, rfl, rfl, rfl, rfl⟩
  | none =>
    have hval₂ := assert_comb_valid_sorted hval
    rw [get_core_miss hfind hval₂] at h₁
    injection h₁ with h₀
    injection h₀ with hr hs
    subst hs
    rw [get_core_hit (show alistFind (sort_comb [G₂, G₁] false, sortFeat C)
        (DecompState.mk (((sort_comb [G₁, G₂] false, sortFeat C),
            (computeFn (sort_comb [G₁, G₂] false) C s.rest).1) :: s.decomps)
          (computeFn (sort_comb [G₁, G₂] false) C s.rest).2).decomps =
        some ((computeFn (sort_comb [G₁, G₂] false) C s.rest).1) by
      rw [hkeyeq, alistFind_cons, if_pos rfl])] at h₂
    injection h₂ with h₀'
    injection h₀' with hr' hs'
    subst hs'
    subst hr
    subst hr'
    rw [adjust_order_swapped hcanon₂]
    exact ⟨rfl, rfl, rfl, rfl, rfl, rfl, rfl⟩

end DecompCacheLemmas

section TermAlgebraLemmas

variable {α : Type} [LinearOrder α]

theorem mem_get_terms {fs : List α} {k : Nat} {t : List α} :
    t ∈ get_terms fs k [] ↔
      t.Sublist fs ∧ 2 ≤ t.length ∧ t.length ≤ k := by
  simp only [get_terms, List.mem_filter, List.mem_flatMap, List.mem_range'_1,
    List.mem_sublistsLen, decide_eq_true_eq, List.not_mem_nil,
    not_false_iff, and_true]
  constructor
  · rintro ⟨d, ⟨h₂, hlt⟩, hsub, hlen⟩
    exact ⟨hsub, by omega, by omega⟩
  · rintro ⟨hsub, h₂, hk⟩
    exact ⟨t.length, ⟨h₂, by omega⟩, hsub, rfl⟩

theorem group_sublist_flatten {comb : List (List α)} {g : List α}
    (hg : g ∈ comb) : g.Sublist comb.flatten := by
  induction comb with
  | nil => cases hg
  | cons g₀ rest ih =>
    rw [List.flatten_cons]
    rcases List.mem_cons.mp hg with rfl | hg'
    · exact List.sublist_append_left _ _
    · exact (ih hg').trans (List.sublist_append_right _ _)

/-- A subsequence of the concatenated groups whose elements all belong to
one member group is a subsequence of that group (the groups are pairwise
disjoint thanks to the no-duplicates hypothesis). -/
theorem sublist_group_of_mem {comb : List (List α)} {g t : List α}
    (hnd : comb.flatten.Nodup) (hg : g ∈ comb)
    (ht : t.Sublist comb.flatten) (hmem : ∀ x ∈ t, x ∈ g) :
    t.Sublist g := by
  induction comb with
  | nil => cases hg
  | cons g₀ rest ih =>
    rw [List.flatten_cons] at ht hnd
    obtain ⟨t₁, t₂, rfl, h₁, h₂⟩ := List.sublist_append_iff.mp ht
    obtain ⟨hnd₀, hndr, hdisj⟩ := List.nodup_append.mp hnd
    rcases List.mem_cons.mp hg with rfl | hg'
    · have ht₂ : t₂ = [] := by
        rw [List.eq_nil_iff_forall_not_mem]
        intro y hy
        exact hdisj (hmem y (List.mem_append.mpr (Or.inr hy))) (h₂.subset hy)
      subst ht₂
      simpa using h₁
    · have ht₁ : t₁ = [] := by
        rw [List.eq_nil_iff_forall_not_mem]
        intro y hy
        have hyg : y ∈ g := hmem y (List.mem_append.mpr (Or.inl hy))
        exact hdisj (h₁.subset hy) ((group_sublist_flatten hg').subset hyg)
      subst ht₁
      simpa using ih hndr hg' h₂

/-- Being a term over a single group plus the conditioning set is, for
subsequences of the full feature sequence, the same as having all
features inside that group or C. -/
theorem sublist_union_iff_within {comb : List (List α)} {C g t : List α}
    (hnd : (comb.flatten ++ C).Nodup) (hg : g ∈ comb)
    (ht : t.Sublist (comb.flatten ++ C)) :
    t.Sublist (g ++ C) ↔ ∀ x ∈ t, x ∈ g ∨ x ∈ C := by
  obtain ⟨hndF, hndC, hdisjFC⟩ := List.nodup_append.mp hnd
  constructor
  · intro hsub x hx
    exact List.mem_append.mp (hsub.subset hx)
  · intro hmem
    obtain ⟨t₁, t₂, rfl, h₁, h₂⟩ := List.sublist_append_iff.mp ht
    have hmem₁ : ∀ x ∈ t₁, x ∈ g := by
      intro x hx
      rcases hmem x (List.mem_append.mpr (Or.inl hx)) with hxg | hxC
      · exact hxg
      · exact (hdisjFC (h₁.subset hx) hxC).elim
    exact (sublist_group_of_mem hndF hg h₁ hmem₁).append h₂

/-- Two member groups sharing a feature are the same group. -/
theorem eq_of_mem_groups {comb : List (List α)} {g g₁ : List α} {x : α}
    (hnd : comb.flatten.Nodup) (hg : g ∈ comb) (hg₁ : g₁ ∈ comb)
    (hx : x ∈ g) (hx₁ : x ∈ g₁) : g = g₁ := by
  induction comb with
  | nil => cases hg
  | cons g₀ rest ih =>
    rw [List.flatten_cons] at hnd
    obtain ⟨hnd₀, hndr, hdisj⟩ := List.nodup_append.mp hnd
    rcases List.mem_cons.mp hg with rfl | hg' <;>
      rcases List.mem_cons.mp hg₁ with rfl | hg₁'
    · rfl
    · exact (hdisj hx ((group_sublist_flatten hg₁').subset hx₁)).elim
    · exact (hdisj hx₁ ((group_sublist_flatten hg').subset hx)).elim
    · exact ih hndr hg' hg₁'

/-- Characterization of membership in the allowed-terms union of
__get_excluded_terms. -/
theorem mem_allowed_terms {comb : List (List α)} {k : Nat} {C t : List α} :
    t ∈ (comb.map (fun e => get_terms (e ++ C) k [])).flatten ↔
      ∃ g ∈ comb, t.Sublist (g ++ C) ∧ 2 ≤ t.length ∧ t.length ≤ k := by
  simp only [List.mem_flatten, List.mem_map]
  constructor
  · rintro ⟨l, ⟨g, hgmem, rfl⟩, htl⟩
    obtain ⟨hs, h₂, hk⟩ := mem_get_terms.mp htl
    exact ⟨g, hgmem, hs, h₂, hk⟩
  · rintro ⟨g, hgmem, hs, h₂, hk⟩
    exact ⟨_, ⟨g, hgmem, rfl⟩, mem_get_terms.mpr ⟨hs, h₂, hk⟩⟩

/-- The excluded terms are exactly the terms of size 2..k over all
features (groups plus conditioning set) that touch at least two distinct
groups; terms inside a single group plus C, in particular pure-C terms,
are never excluded. -/
theorem get_excluded_terms_iff {comb : List (List α)} {k : Nat} {C : List α}
    (hnd : (comb.flatten ++ C).Nodup) (hne : comb ≠ []) (t : List α) :
    t ∈ get_excluded_terms comb k C ↔
      t.Sublist (comb.flatten ++ C) ∧ 2 ≤ t.length ∧ t.length ≤ k ∧
        ∃ g₁ ∈ comb, ∃ g₂ ∈ comb, g₁ ≠ g₂ ∧
          (∃ x ∈ t, x ∈ g₁) ∧ ∃ y ∈ t, y ∈ g₂ := by
  obtain ⟨hndF, hndC, hdisjFC⟩ := List.nodup_append.mp hnd
  simp only [get_excluded_terms, List.mem_filter, decide_eq_true_eq]
  constructor
  · rintro ⟨hall, hnotallowed⟩
    obtain ⟨hsub, h₂, hklen⟩ := mem_get_terms.mp hall
    refine ⟨hsub, h₂, hklen, ?_⟩
    have hnotwithin : ¬ ∃ g ∈ comb, ∀ x ∈ t, x ∈ g ∨ x ∈ C := by
      rintro ⟨g, hgmem, hwithin⟩
      exact hnotallowed (mem_allowed_terms.mpr ⟨g, hgmem,
        (sublist_union_iff_within hnd hgmem hsub).mpr hwithin, h₂, hklen⟩)
    have hxnotC : ∃ x ∈ t, x ∉ C := by
      by_contra hcontra
      push_neg at hcontra
      obtain ⟨g, hgmem⟩ := List.exists_mem_of_ne_nil comb hne
      exact hnotwithin ⟨g, hgmem, fun x hx => Or.inr (hcontra x hx)⟩
    obtain ⟨x, hxt, hxC⟩ := hxnotC
    have hxF : x ∈ comb.flatten := by
      rcases List.mem_append.mp (hsub.subset hxt) with h | h
      · exact h
      · exact absurd h hxC
    obtain ⟨g₁, hg₁mem, hxg₁⟩ := List.mem_flatten.mp hxF
    have hnw₁ : ¬ ∀ y ∈ t, y ∈ g₁ ∨ y ∈ C := fun hw =>
      hnotwithin ⟨g₁, hg₁mem, hw⟩
    push_neg at hnw₁
    obtain ⟨y, hyt, hyg₁, hyC⟩ := hnw₁
    have hyF : y ∈ comb.flatten := by
      rcases List.mem_append.mp (hsub.subset hyt) with h | h
      · exact h
      · exact absurd h hyC
    obtain ⟨g₂, hg₂mem, hyg₂⟩ := List.mem_flatten.mp hyF
    refine ⟨g₁, hg₁mem, g₂, hg₂mem, ?_, ⟨x, hxt, hxg₁⟩, ⟨y, hyt, hyg₂⟩⟩
    intro heq
    exact hyg₁ (heq ▸ hyg₂)
  · rintro ⟨hsub, h₂, hklen, g₁, hg₁mem, g₂, hg₂mem, hne₁₂,
      ⟨x, hxt, hxg₁⟩, ⟨y, hyt, hyg₂⟩⟩
    refine ⟨mem_get_terms.mpr ⟨hsub, h₂, hklen⟩, ?_⟩
    intro hallow
    obtain ⟨g, hgmem, hsubg, _, _⟩ := mem_allowed_terms.mp hallow
    have hxg : x ∈ g := by
      rcases List.mem_append.mp (hsubg.subset hxt) with h | h
      · exact h
      · exact (hdisjFC ((group_sublist_flatten hg₁mem).subset hxg₁) h).elim
    have hyg : y ∈ g := by
      rcases List.mem_append.mp (hsubg.subset hyt) with h | h
      · exact h
      · exact (hdisjFC ((group_sublist_flatten hg₂mem).subset hyg₂) h).elim
    exact hne₁₂ ((eq_of_mem_groups hndF hg₁mem hgmem hxg₁ hxg).trans
      (eq_of_mem_groups hndF hgmem hg₂mem hyg hyg₂))

end TermAlgebraLemmas

section ConcreteInstances

/-- Statistics of a run with non-empty conditioning set: the residual
variance (1) differs from the total target variance (2), so the rescaling
factor is 1/2; only groups explaining nothing with a grouped model of
explained variance 1, so the covariance-adjusted additive term is 1. -/
def c1Stats : ComputeStats :=
  { varYRes := 1, varBPred := 0, varTotal := 1, varGAM := 1,
    varF1 := 0, varF2 := 0, covRaw := 0, varY := 2 }

/-- Statistics of a run whose evaluation residual target has zero
variance. -/
def c6Stats : ComputeStats :=
  { varYRes := 0, varBPred := 1, varTotal := 1, varGAM := 1,
    varF1 := 1, varF2 := 1, covRaw := 1, varY := 0 }

/-- Stub compute oracle counting its invocations in the abstract engine
rest state, used to exhibit that get with an overlapping conditioning set
proceeds into compute. -/
def overlapComputeFn : List (List ℕ) → List ℕ → ℕ →
    DecompositionResult ℚ × ℕ :=
  fun _ _ n =>
    ({ var_g1 := 1, var_g2 := 1, var_gC := 0, additive_collab_explv := 0,
       additive_collab_cov := 0, interactive_collab := 0 }, n + 1)

/-- Engine state holding one cached decomposition and one fitted model. -/
def c3Engine : EngineState ℕ ℚ :=
  { test_size := 1 / 5, split := 0,
    decomps := [(([[0], [1]], []),
      { var_g1 := 1, var_g2 := 0, var_gC := 0, additive_collab_explv := 0,
        additive_collab_cov := 0, interactive_collab := 0 })],
    models := [((2, [[0]], []), 5)] }

/-- Stub compute oracle returning a fixed result with distinct per-group
variances (1 for the canonically first group, 2 for the second). -/
def swapComputeFn : List (List ℕ) → List ℕ → ℕ →
    DecompositionResult ℚ × ℕ :=
  fun _ _ n =>
    ({ var_g1 := 1, var_g2 := 2, var_gC := 0, additive_collab_explv := 0,
       additive_collab_cov := 0, interactive_collab := 0 }, n)

/-- The fixed result of swapComputeFn. -/
def swapRes : DecompositionResult ℚ :=
  { var_g1 := 1, var_g2 := 2, var_gC := 0, additive_collab_explv := 0,
    additive_collab_cov := 0, interactive_collab := 0 }

/-- swapRes with the two per-group variances exchanged. -/
def swapResFlipped : DecompositionResult ℚ :=
  { var_g1 := 2, var_g2 := 1, var_gC := 0, additive_collab_explv := 0,
    additive_collab_cov := 0, interactive_collab := 0 }

/-- Decomposition-cache state after one cache-missing query for the
combination of features 0 and 1 against swapComputeFn. -/
def swapState1 : DecompState ℕ ℚ ℕ :=
  { decomps := [(([[0], [1]], []), swapRes)], rest := 0 }

/-- Fit-counting stub compute oracle for the memoization witness. -/
def countComputeFn : List (List ℕ) → List ℕ → ℕ →
    DecompositionResult ℚ × ℕ :=
  fun _ _ n =>
    ({ var_g1 := 0, var_g2 := 0, var_gC := 0, additive_collab_explv := 0,
       additive_collab_cov := 0, interactive_collab := 0 }, n + 1)

/-- Model-cache state holding one fitted model whose fit was logged. -/
def modelState1 : ModelState ℕ :=
  { models := [((2, [[0]], []), 5)], fit_log := [(2, [[0]], [])], fresh := 6 }

/-- Decomposition-cache state after one cache-missing query against
countComputeFn: one stored result, one recorded compute invocation. -/
def countState1 : DecompState ℕ ℚ ℕ :=
  { decomps := [(([[0], [1]], []),
      { var_g1 := 0, var_g2 := 0, var_gC := 0, additive_collab_explv := 0,
        additive_collab_cov := 0, interactive_collab := 0 })], rest := 1 }

/-- Stub compute oracle for the cache-invariant witness. -/
def invComputeFn : List (List ℕ) → List ℕ → ℕ →
    DecompositionResult ℚ × ℕ :=
  fun _ _ n =>
    ({ var_g1 := 3, var_g2 := 4, var_gC := 0, additive_collab_explv := 0,
       additive_collab_cov := 0, interactive_collab := 0 }, n)

/-- The fixed result of invComputeFn. -/
def invRes : DecompositionResult ℚ :=
  { var_g1 := 3, var_g2 := 4, var_gC := 0, additive_collab_explv := 0,
    additive_collab_cov := 0, interactive_collab := 0 }

/-- Decomposition-cache state holding invRes under its canonical key. -/
def invState1 : DecompState ℕ ℚ ℕ :=
  { decomps := [(([[0], [1]], []), invRes)], rest := 0 }

/-- Stub compute oracle for the shorthand witness. -/
def shorthandComputeFn : List (List ℕ) → List ℕ → ℕ →
    DecompositionResult ℚ × ℕ :=
  fun _ _ n =>
    ({ var_g1 := 0, var_g2 := 0, var_gC := 0, additive_collab_explv := 0,
       additive_collab_cov := 0, interactive_collab := 0 }, n)

end ConcreteInstances

section Claims

/-- Claim C1: the claim states that all six reported quantities, among
them the covariance-adjusted additive term additiveCollabWoCov, are
multiplied by varYres / variance(true eval target) before being
returned.  The source rescales varF1, varF2, varFC, covG1G2 and
interactiveCollab (and the no-longer-used additive_collab variable), but
returns additive_collab_wo_cov without the factor: at the concrete
statistics c1Stats (factor 1/2) the returned additive_collab_explv entry
is 1, whereas the rescaled covariance-adjusted additive term is 1/2; the
other five entries do carry the factor. -/
theorem c1_additive_explv_unscaled :
    (computeScores c1Stats).additive_collab_explv = 1 ∧
    (c1Stats.varYRes / c1Stats.varY) *
        ((c1Stats.varF1 + c1Stats.varF2 - c1Stats.varGAM) * (-1) +
          2 * (c1Stats.covRaw / c1Stats.varYRes)) = 1 / 2 ∧
    (computeScores c1Stats).additive_collab_explv ≠
      (c1Stats.varYRes / c1Stats.varY) *
        ((c1Stats.varF1 + c1Stats.varF2 - c1Stats.varGAM) * (-1) +
          2 * (c1Stats.covRaw / c1Stats.varYRes)) ∧
    (computeScores c1Stats).var_g1 =
      c1Stats.varF1 * (c1Stats.varYRes / c1Stats.varY) ∧
    (computeScores c1Stats).interactive_collab =
      (c1Stats.varTotal - c1Stats.varGAM) * (c1Stats.varYRes / c1Stats.varY) := by
  refine ⟨?_, ?_, ?_, ?_, ?_⟩ <;> norm_num [computeScores, c1Stats]

/-- Claim C2: the claim states that get([G1,G2], C) fails with
OverlapError whenever C intersects G1 and G2, before any fitting.  In the
source, get calls the validator without forwarding C (and so does
compute), so the conditioning-set disjointness assert compares against
the empty default: here C = [0] intersects G1 = [0], yet get returns a
normal result and the compute oracle records an invocation (the
fitting). -/
theorem c2_overlapping_conditioning_accepted :
    (∃ f ∈ ([0] : List ℕ) ++ [1], f ∈ ([0] : List ℕ)) ∧
    CollabExplainer.get overlapComputeFn [0, 1]
        [RawGroup.single 0, RawGroup.single 1] [0]
        { decomps := [], rest := 0 } =
      .ok ({ var_g1 := 1, var_g2 := 1, var_gC := 0, additive_collab_explv := 0,
             additive_collab_cov := 0, interactive_collab := 0 },
        { decomps := [(([[0], [1]], [0]),
            { var_g1 := 1, var_g2 := 1, var_gC := 0,
              additive_collab_explv := 0, additive_collab_cov := 0,
              interactive_collab := 0 })], rest := 1 }) := by
  constructor
  · exact ⟨0, by decide, by decide⟩
  · decide

/-- Claim C3: the claim states that new_split clears both the
decomposition cache and the model cache.  The source clears only
self.decomps: on an engine state with one fitted model cached, the model
cache after new_split still holds that entry. -/
theorem c3_new_split_keeps_models :
    (new_split c3Engine 1 none).decomps = [] ∧
    (new_split c3Engine 1 none).models = c3Engine.models ∧
    c3Engine.models ≠ [] := by
  refine ⟨rfl, rfl, ?_⟩
  simp [c3Engine]

/-- Claim C4 (counterexample): the claim states that get([G1,G2]) and
get([G2,G1]) always agree up to swapping var_g1 and var_g2, regardless of
which call happens first.  When the first (cache-missing) call supplies
the groups in non-canonical order, get returns the compute result in
canonical label order without applying adjust_order, so the two calls
return identical results: with distinct per-group variances 1 and 2, the
required swap would force 1 = 2. -/
theorem c4_noncanonical_first_counterexample :
    CollabExplainer.get swapComputeFn [0, 1]
        [RawGroup.group [1], RawGroup.group [0]] []
        { decomps := [], rest := 0 } = .ok (swapRes, swapState1) ∧
    CollabExplainer.get swapComputeFn [0, 1]
        [RawGroup.group [0], RawGroup.group [1]] [] swapState1 =
      .ok (swapRes, swapState1) ∧
    swapRes.var_g1 ≠ swapRes.var_g2 := by
  refine ⟨by decide, by decide, by decide⟩

/-- Claim C4 (amended): for a valid combination of two groups whose first
caller order is canonical, get([G1,G2]) followed by get([G2,G1]) swap
var_g1 and var_g2 and agree on the four group-order-independent entries,
and the second call leaves the state unchanged; this holds whether the
first call misses or hits the cache.  When the cache-missing call is in
non-canonical order, the two calls instead return identical canonical
labeled results (see the counterexample). -/
theorem c4_symmetry_amended {α : Type} [LinearOrder α] {V σ : Type}
    (computeFn : List (List α) → List α → σ → DecompositionResult V × σ)
    (fs G₁ G₂ C : List α) (s s₁ s₂ : DecompState α V σ)
    (r₁ r₂ : DecompositionResult V)
    (hval : assert_comb_valid fs [RawGroup.group G₁, RawGroup.group G₂] [] =
      .ok [G₁, G₂])
    (hcanon : sort_comb [G₁, G₂] true = sort_comb [G₁, G₂] false)
    (hne : sortFeat G₁ ≠ sortFeat G₂)
    (h₁ : CollabExplainer.get computeFn fs
      [RawGroup.group G₁, RawGroup.group G₂] C s = .ok (r₁, s₁))
    (h₂ : CollabExplainer.get computeFn fs
      [RawGroup.group G₂, RawGroup.group G₁] C s₁ = .ok (r₂, s₂)) :
    s₂ = s₁ ∧ r₂.var_g1 = r₁.var_g2 ∧ r₂.var_g2 = r₁.var_g1 ∧
      r₂.var_gC = r₁.var_gC ∧
      r₂.additive_collab_explv = r₁.additive_collab_explv ∧
      r₂.additive_collab_cov = r₁.additive_collab_cov ∧
      r₂.interactive_collab = r₁.interactive_collab :=
  get_swap_of_canonical_first hval hcanon hne h₁ h₂

theorem c4_symmetry_amended_witness :
    swapState1 = swapState1 ∧ swapResFlipped.var_g1 = swapRes.var_g2 ∧
      swapResFlipped.var_g2 = swapRes.var_g1 ∧
      swapResFlipped.var_gC = swapRes.var_gC ∧
      swapResFlipped.additive_collab_explv = swapRes.additive_collab_explv ∧
      swapResFlipped.additive_collab_cov = swapRes.additive_collab_cov ∧
      swapResFlipped.interactive_collab = swapRes.interactive_collab :=
  c4_symmetry_amended swapComputeFn [0, 1] [0] [1] []
    { decomps := [], rest := 0 } swapState1 swapState1 swapRes swapResFlipped
    (by decide) (by decide) (by decide) (by decide) (by decide)

/-- Claim C5: the model cache memoizes on (order, canonical combination,
sorted conditioning set): a key hit returns the stored predictor and
changes nothing; an immediately repeated request is a no-op returning the
identical stored predictor; every call preserves the invariant that the
learner has been fit at most once per key (no duplicate key in the fit
log, every logged key cached); and a second get with the same combination
and conditioning set is served from the decomposition cache with the
whole engine state, hence any learner fit count, unchanged. -/
theorem c5_model_cache_memoization {α : Type} [LinearOrder α] :
    (∀ (order : Nat) (comb : List (List α)) (C : List α) (s : ModelState α)
        (m : Nat), alistFind (modelKeyOf order comb C) s.models = some m →
          get_model order comb C s = (m, s)) ∧
    (∀ (order : Nat) (comb : List (List α)) (C : List α) (s : ModelState α),
        get_model order comb C (get_model order comb C s).2 =
          get_model order comb C s) ∧
    (∀ (order : Nat) (comb : List (List α)) (C : List α) (s : ModelState α),
        ModelCacheInv s → ModelCacheInv (get_model order comb C s).2) ∧
    (∀ (V σ : Type)
        (computeFn : List (List α) → List α → σ → DecompositionResult V × σ)
        (fs : List α) (comb : List (RawGroup α)) (C : List α)
        (s s₁ : DecompState α V σ) (r₁ : DecompositionResult V),
        CollabExplainer.get computeFn fs comb C s = .ok (r₁, s₁) →
        ∃ r₂, CollabExplainer.get computeFn fs comb C s₁ = .ok (r₂, s₁)) :=
  ⟨fun _ _ _ _ _ h => get_model_hit h,
   fun order comb C s => get_model_idem order comb C s,
   fun _ _ _ _ hinv => get_model_inv hinv,
   fun _ _ _ _ _ _ _ _ _ h => get_second_call h⟩

theorem c5_model_cache_memoization_witness :
    get_model 2 [[0]] [] modelState1 = (5, modelState1) ∧
    ModelCacheInv (get_model 3 [[0], [1]] [2] modelState1).2 ∧
    ∃ r₂, CollabExplainer.get countComputeFn [0, 1]
        [RawGroup.single 0, RawGroup.single 1] [] countState1 =
      .ok (r₂, countState1) :=
  ⟨c5_model_cache_memoization.1 2 [[0]] [] modelState1 5 (by decide),
   c5_model_cache_memoization.2.2.1 3 [[0], [1]] [2] modelState1 (by unfold ModelCacheInv; decide),
   c5_model_cache_memoization.2.2.2 ℚ ℕ countComputeFn [0, 1]
     [RawGroup.single 0, RawGroup.single 1] [] { decomps := [], rest := 0 }
     countState1
     { var_g1 := 0, var_g2 := 0, var_gC := 0, additive_collab_explv := 0,
       additive_collab_cov := 0, interactive_collab := 0 } (by decide)⟩

/-- Claim C6 (counterexample): the claim states that compute fails with
DegenerateTargetError when the evaluation residual target has zero
variance.  The source has no such guard: at c6Stats (zero varYRes)
compute returns a normal result, performing the divisions (rational
division by zero yields 0 here; IEEE arithmetic yields non-finite values;
in neither semantics is an error raised). -/
theorem c6_zero_variance_counterexample :
    c6Stats.varYRes = 0 ∧
    compute [0, 1] [RawGroup.single 0, RawGroup.single 1] [] c6Stats =
      .ok { var_g1 := 0, var_g2 := 0, var_gC := 0,
            additive_collab_explv := -1, additive_collab_cov := 0,
            interactive_collab := 0 } := by
  refine ⟨rfl, ?_⟩
  have hval : assert_comb_valid ([0, 1] : List ℕ)
      [RawGroup.single 0, RawGroup.single 1] [] = .ok [[0], [1]] := by decide
  unfold compute
  rw [hval]
  simp only [computeScores, c6Stats, DecompositionResult.mk.injEq]
  norm_num

/-- Claim C6 (amended): compute performs no zero-variance check on the
evaluation target; it executes the rescaling divisions unconditionally
and never raises DegenerateTargetError on any input (its only failures
are the validation errors). -/
theorem c6_compute_never_degenerate {α : Type} [LinearOrder α]
    (fs : List α) (comb : List (RawGroup α)) (C : List α)
    (st : ComputeStats) :
    compute fs comb C st ≠ Except.error CollabError.degenerateTarget := by
  intro hcontra
  unfold compute at hcontra
  cases h : assert_comb_valid fs comb [] with
  | error e =>
    rw [h] at hcontra
    injection hcontra with he
    rw [he] at h
    exact assert_comb_valid_ne_degenerate h
  | ok c =>
    rw [h] at hcontra
    cases hcontra

/-- Claim C7: for disjoint groups and a conditioning set disjoint from
them (no duplicate features), the excluded terms are exactly the
interaction terms of size 2..k over all groups and C that contain
features from more than one group; terms lying inside a single group plus
C, pure-C terms included, are never excluded. -/
theorem c7_excluded_terms_cross_group {α : Type} [LinearOrder α]
    (comb : List (List α)) (k : Nat) (C : List α)
    (hk : 2 ≤ k) (hnd : (comb.flatten ++ C).Nodup) (hne : comb ≠ [])
    (t : List α) :
    t ∈ get_excluded_terms comb k C ↔
      t.Sublist (comb.flatten ++ C) ∧ 2 ≤ t.length ∧ t.length ≤ k ∧
        ∃ g₁ ∈ comb, ∃ g₂ ∈ comb, g₁ ≠ g₂ ∧
          (∃ x ∈ t, x ∈ g₁) ∧ ∃ y ∈ t, y ∈ g₂ :=
  get_excluded_terms_iff hnd hne t

theorem c7_excluded_terms_cross_group_witness :
    [0, 1] ∈ get_excluded_terms [[0], [1]] 2 ([2] : List ℕ) ↔
      ([0, 1] : List ℕ).Sublist (([[0], [1]] : List (List ℕ)).flatten ++ [2]) ∧
        2 ≤ ([0, 1] : List ℕ).length ∧ ([0, 1] : List ℕ).length ≤ 2 ∧
        ∃ g₁ ∈ ([[0], [1]] : List (List ℕ)),
          ∃ g₂ ∈ ([[0], [1]] : List (List ℕ)), g₁ ≠ g₂ ∧
            (∃ x ∈ ([0, 1] : List ℕ), x ∈ g₁) ∧
              ∃ y ∈ ([0, 1] : List ℕ), y ∈ g₂ :=
  c7_excluded_terms_cross_group [[0], [1]] 2 [2] (by decide) (by decide)
    (by decide) [0, 1]

/-- Claim C8: full canonicalization is invariant under permuting the
groups and reordering the features inside each group, so two
combinations differing only in the order the groups were supplied share
the canonical key; the canonical form is sorted, groups ascending by
(size, lexicographic contents) and features ascending inside each
group. -/
theorem c8_canonicalization_invariant {α : Type} [LinearOrder α] :
    (∀ comb₁ comb₂ : List (List α),
        (∃ mid, comb₁.Perm mid ∧ List.Forall₂ List.Perm mid comb₂) →
          sort_comb comb₁ false = sort_comb comb₂ false) ∧
    (∀ g₁ g₂ : List α, sort_comb [g₁, g₂] false = sort_comb [g₂, g₁] false) ∧
    (∀ comb : List (List α),
        List.Sorted groupKey (sort_comb comb false) ∧
        ∀ g ∈ sort_comb comb false,
          List.Sorted (fun a b : α => a ≤ b) g) := by
  refine ⟨fun _ _ h => sort_comb_eq_of_rel h,
    fun g₁ g₂ => (sort_comb_swap_eq g₁ g₂).symm, fun comb => ⟨?_, ?_⟩⟩
  · rw [sort_comb_false_def]
    exact List.sorted_insertionSort groupKey _
  · intro g hg
    rw [sort_comb_false_def] at hg
    have hmem : g ∈ comb.map sortFeat :=
      (List.perm_insertionSort groupKey (comb.map sortFeat)).mem_iff.mp hg
    obtain ⟨g₀, _, rfl⟩ := List.mem_map.mp hmem
    exact sortFeat_sorted g₀

theorem c8_canonicalization_invariant_witness :
    sort_comb ([[2, 1], [3]] : List (List ℕ)) false =
      sort_comb ([[3], [1, 2]] : List (List ℕ)) false :=
  c8_canonicalization_invariant.1 [[2, 1], [3]] [[3], [1, 2]]
    ⟨[[3], [2, 1]], by decide, by decide⟩

/-- Claim C9: for distinct dataset features a and b, querying with the
bare-name shorthand get([a, b]) is identical - validation,
canonicalization, caching, computation and result - to querying with the
one-element-group form get([[a], [b]]). -/
theorem c9_single_feature_shorthand {α : Type} [LinearOrder α] {V σ : Type}
    (computeFn : List (List α) → List α → σ → DecompositionResult V × σ)
    (fs : List α) (a b : α) (C : List α) (s : DecompState α V σ)
    (ha : a ∈ fs) (hb : b ∈ fs) (hab : a ≠ b) :
    CollabExplainer.get computeFn fs
        [RawGroup.single a, RawGroup.single b] C s =
      CollabExplainer.get computeFn fs
        [RawGroup.group [a], RawGroup.group [b]] C s := rfl

theorem c9_single_feature_shorthand_witness :
    CollabExplainer.get shorthandComputeFn [0, 1]
        [RawGroup.single 0, RawGroup.single 1] []
        { decomps := [], rest := 0 } =
      CollabExplainer.get shorthandComputeFn [0, 1]
        [RawGroup.group [0], RawGroup.group [1]] []
        { decomps := [], rest := 0 } :=
  c9_single_feature_shorthand shorthandComputeFn [0, 1] 0 1 []
    { decomps := [], rest := 0 } (by decide) (by decide) (by decide)

/-- Claim C10: every result stored in the decomposition cache sits under
its canonical key (fully sorted combination, sorted conditioning set) and
is the compute output for exactly that canonical combination, so cached
entries carry canonical group labels; and serving a cache hit returns an
out-of-place relabeled copy while leaving the engine state - in
particular the stored entry - untouched, so interleaved queries in either
group order always read the same cached values. -/
theorem c10_cache_canonical_and_immutable {α : Type} [LinearOrder α] :
    (∀ (V σ : Type)
        (computeFn : List (List α) → List α → σ → DecompositionResult V × σ)
        (fs : List α) (comb : List (RawGroup α)) (C : List α)
        (s s' : DecompState α V σ) (r' : DecompositionResult V),
        DecompCacheInv computeFn s →
        CollabExplainer.get computeFn fs comb C s = .ok (r', s') →
        DecompCacheInv computeFn s') ∧
    (∀ (V σ : Type)
        (computeFn : List (List α) → List α → σ → DecompositionResult V × σ)
        (fs : List α) (comb : List (RawGroup α)) (C : List α)
        (s : DecompState α V σ) (comb₁ : List (List α))
        (res : DecompositionResult V),
        assert_comb_valid fs comb [] = .ok comb₁ →
        alistFind (sort_comb comb₁ false, sortFeat C) s.decomps = some res →
        CollabExplainer.get computeFn fs comb C s =
          .ok (adjust_order comb₁ res, s)) :=
  ⟨fun _ _ _ _ _ _ _ _ _ hinv h => get_preserves_inv hinv h,
   fun _ _ _ _ _ _ _ _ _ hval hfind => get_hit_serves_copy hval hfind⟩

theorem c10_cache_canonical_and_immutable_witness :
    DecompCacheInv invComputeFn invState1 ∧
    CollabExplainer.get invComputeFn [0, 1]
        [RawGroup.group [1], RawGroup.group [0]] [] invState1 =
      .ok (adjust_order [[1], [0]] invRes, invState1) :=
  ⟨c10_cache_canonical_and_immutable.1 ℚ ℕ invComputeFn [0, 1]
      [RawGroup.group [0], RawGroup.group [1]] []
      { decomps := [], rest := 0 } invState1 invRes
      (fun k res h => by simp [alistFind] at h) (by decide),
   c10_cache_canonical_and_immutable.2 ℚ ℕ invComputeFn [0, 1]
      [RawGroup.group [1], RawGroup.group [0]] [] invState1 [[1], [0]] invRes
      (by decide) (by decide)⟩

end Claims
